import Mathlib

/-!
Verification of the bounded circular queue (`ring-buffer/src/lib.rs`).

The Rust code is embedded shallowly:

* `Queue T` mirrors `struct Queue<T> { buffer: Vec<Option<T>>, head, tail, len }`.
* A Rust `panic!` (the `assert!` in `new`, an out-of-bounds `Vec` index in
  `push`/`pop`) is modelled by an outer `Option`: `none` is a panic,
  `some r` is normal completion with result `r`.
* `push` takes `&mut self` and returns `Result<(), Error>`; here it returns
  the result paired with the post-state.  On the `Err` branch the Rust code
  returns before touching any field, so the embedding returns the input
  state unchanged.
* `pop` returns `Option<T>` paired with the post-state; `buffer[head].take()`
  is a read of the slot followed by writing `none` into it.
-/

namespace RingBuffer

/-- Error type for queue operations (`enum Error { Full }`).
It has a single payload-free constructor: a failed `push` cannot hand the
pushed item back through it. -/
inductive Error where
  | Full
deriving DecidableEq, Repr

/-- A bounded queue (ring buffer) with fixed capacity
(`struct Queue<T> { buffer, head, tail, len }`). -/
structure Queue (T : Type) where
  buffer : List (Option T)
  head : Nat
  tail : Nat
  len : Nat
deriving Repr

/-- Rust `fn capacity(&self) -> usize { self.buffer.len() }` -/
def Queue.capacity (q : Queue T) : Nat := q.buffer.length

/-- Rust `fn is_empty(&self) -> bool { self.len == 0 }` -/
def Queue.is_empty (q : Queue T) : Bool := q.len == 0

/-- Rust `fn is_full(&self) -> bool { self.len == self.capacity() }` -/
def Queue.is_full (q : Queue T) : Bool := q.len == q.capacity

/-- Rust `fn new(capacity: usize) -> Self`: asserts `capacity > 0` (panic — `none` —
otherwise), then allocates `capacity` vacant slots and zero indices. -/
def Queue.new (T : Type) (capacity : Nat) : Option (Queue T) :=
  if capacity > 0 then
    some { buffer := List.replicate capacity none, head := 0, tail := 0, len := 0 }
  else
    none

/-- Rust `fn push(&mut self, item: T) -> Result<(), Error>`.
If full, returns `Err(Error::Full)` with the state untouched.  Otherwise
writes `Some(item)` into slot `tail` (`none` models the index-out-of-bounds
panic of `self.buffer[self.tail] = ...`), advances `tail` modulo the
capacity and increments `len`. -/
def Queue.push (q : Queue T) (item : T) : Option (Except Error Unit × Queue T) :=
  if q.is_full then
    some (Except.error Error.Full, q)
  else if q.tail < q.buffer.length then
    some (Except.ok (),
      { buffer := q.buffer.set q.tail (some item)
        head := q.head
        tail := (q.tail + 1) % q.capacity
        len := q.len + 1 })
  else
    none

/-- Rust `fn pop(&mut self) -> Option<T>`.
If empty, returns `None` with the state untouched.  Otherwise takes the
slot at `head` (`self.buffer[self.head].take()`: read the slot, leave `None`
behind; `none` at the outer layer models the index-out-of-bounds panic),
advances `head` modulo the capacity and decrements `len`. -/
def Queue.pop (q : Queue T) : Option (Option T × Queue T) :=
  if q.is_empty then
    some (none, q)
  else if h : q.head < q.buffer.length then
    some (q.buffer.get ⟨q.head, h⟩,
      { buffer := q.buffer.set q.head none
        head := (q.head + 1) % q.capacity
        tail := q.tail
        len := q.len - 1 })
  else
    none

/-- The representation invariant tying a queue state to the list of values it
holds, oldest first: `len` matches, the indices are in range, `tail` sits
`len` slots (mod capacity) after `head`, the `len` slots starting at `head`
hold exactly the values of `xs` in order, and every other slot is vacant. -/
def Queue.Represents (q : Queue T) (xs : List T) : Prop :=
  q.len = xs.length ∧
  xs.length ≤ q.capacity ∧
  q.head < q.capacity ∧
  q.tail = (q.head + q.len) % q.capacity ∧
  (∀ k, (h : k < xs.length) →
    q.buffer[(q.head + k) % q.capacity]? = some (some (xs[k]))) ∧
  (∀ i, i < q.capacity → (∀ k, k < q.len → i ≠ (q.head + k) % q.capacity) →
    q.buffer[i]? = some none)

/-- States reachable from `new capacity` by any sequence of completed
(non-panicking) `push`/`pop` calls. -/
inductive Reachable (T : Type) (capacity : Nat) : Queue T → Prop where
  | new : ∀ q, Queue.new T capacity = some q → Reachable T capacity q
  | push : ∀ q x r q', Reachable T capacity q →
      q.push x = some (r, q') → Reachable T capacity q'
  | pop : ∀ q o q', Reachable T capacity q →
      q.pop = some (o, q') → Reachable T capacity q'

/-- Adding a fixed offset and reducing modulo the capacity is injective on
offsets below the capacity: the reason distinct logical positions of the
ring occupy distinct slots. -/
theorem add_mod_inj {cap off a b : Nat} (ha : a < cap) (hb : b < cap)
    (h : (off + a) % cap = (off + b) % cap) : a = b := by
  have hab : Nat.ModEq cap a b := Nat.ModEq.add_left_cancel' off h
  have h2 : a % cap = b % cap := hab
  rwa [Nat.mod_eq_of_lt ha, Nat.mod_eq_of_lt hb] at h2

theorem Queue.capacity_pos {q : Queue T} {xs : List T}
    (h : q.Represents xs) : 0 < q.capacity :=
  Nat.lt_of_le_of_lt (Nat.zero_le q.head) h.2.2.1

/-- A queue freshly built by `new` represents the empty list. -/
theorem Queue.new_represents {T : Type} {c : Nat} {q : Queue T}
    (h : Queue.new T c = some q) : q.Represents [] ∧ q.capacity = c := by
  unfold Queue.new at h
  split at h
  case isTrue hc =>
    cases h
    unfold Queue.Represents Queue.capacity
    simp only [List.length_replicate, List.length_nil]
    refine ⟨⟨by trivial, Nat.zero_le c, hc, by simp, ?_, ?_⟩, by trivial⟩
    · intro k hk
      omega
    · intro i hi _
      simp [List.getElem?_replicate, hi]
  case isFalse => cases h

/-- Pushing on a full queue: `Err(Full)` and the state is returned untouched. -/
theorem Queue.push_of_full {q : Queue T} (x : T) (h : q.len = q.capacity) :
    q.push x = some (Except.error Error.Full, q) := by
  simp [Queue.push, Queue.is_full, h]

/-- Pushing on a non-full queue with its write index in range: the success
branch, spelled out. -/
theorem Queue.push_of_not_full {q : Queue T} (x : T) (h1 : q.len < q.capacity)
    (h2 : q.tail < q.capacity) :
    q.push x = some (Except.ok (),
      { buffer := q.buffer.set q.tail (some x)
        head := q.head
        tail := (q.tail + 1) % q.capacity
        len := q.len + 1 }) := by
  have hf : q.is_full = false := by
    simp only [Queue.is_full, beq_eq_false_iff_ne, ne_eq]
    exact Nat.ne_of_lt h1
  have h2' : q.tail < q.buffer.length := h2
  simp [Queue.push, hf, h2']

/-- Pushing preserves the representation invariant, appending the item. -/
theorem Queue.push_represents {T : Type} {q : Queue T} {xs : List T} (x : T)
    (h : q.Represents xs) (hlt : xs.length < q.capacity) :
    ∃ q', q.push x = some (Except.ok (), q') ∧
      q'.Represents (xs ++ [x]) ∧ q'.capacity = q.capacity := by
  obtain ⟨hlen, hle, hhead, htail, hocc, hvac⟩ := h
  have hcap : 0 < q.capacity := Nat.lt_of_le_of_lt (Nat.zero_le q.head) hhead
  have hlenlt : q.len < q.capacity := by omega
  have htlt : q.tail < q.capacity := by rw [htail]; exact Nat.mod_lt _ hcap
  refine ⟨_, Queue.push_of_not_full x hlenlt htlt, ?_, ?_⟩
  case refine_2 => simp [Queue.capacity]
  unfold Queue.Represents Queue.capacity at *
  simp only [List.length_set, List.length_append, List.length_singleton] at *
  refine ⟨by omega, by omega, hhead, ?_, ?_, ?_⟩
  · rw [htail, Nat.mod_add_mod, Nat.add_assoc]
  · intro k hk
    rcases Nat.lt_or_ge k xs.length with hk' | hk'
    · have hne : q.tail ≠ (q.head + k) % q.buffer.length := by
        rw [htail]
        intro he
        have : q.len = k := add_mod_inj hlenlt (by omega) he
        omega
      rw [List.getElem?_set_ne hne, List.getElem_append_left hk']
      exact hocc k hk'
    · have hkeq : k = xs.length := by omega
      subst hkeq
      have hidx : (q.head + xs.length) % q.buffer.length = q.tail := by
        rw [htail, hlen]
      rw [hidx, List.getElem?_set_self htlt]
      simp
  · intro i hi hk
    have hit : i ≠ q.tail := by
      intro he
      exact hk q.len (by omega) (by rw [he, htail])
    rw [List.getElem?_set_ne (Ne.symm hit)]
    refine hvac i hi ?_
    intro k hklen
    exact hk k (by omega)

/-- Popping an empty queue returns `None` with the state untouched. -/
theorem Queue.pop_of_empty {q : Queue T} (h : q.len = 0) :
    q.pop = some (none, q) := by
  simp [Queue.pop, Queue.is_empty, h]

/-- Popping consumes the head of the represented list and preserves the
representation invariant. -/
theorem Queue.pop_represents {T : Type} {q : Queue T} {x : T} {xs : List T}
    (h : q.Represents (x :: xs)) :
    ∃ q', q.pop = some (some x, q') ∧ q'.Represents xs ∧ q'.capacity = q.capacity := by
  obtain ⟨hlen, hle, hhead, htail, hocc, hvac⟩ := h
  have hcap : 0 < q.capacity := Nat.lt_of_le_of_lt (Nat.zero_le q.head) hhead
  have hemp : q.is_empty = false := by
    simp only [Queue.is_empty, beq_eq_false_iff_ne, ne_eq, hlen]
    simp
  have hh : q.head < q.buffer.length := hhead
  have hval : q.buffer[q.head]? = some (some x) := by
    have h0 := hocc 0 (by simp)
    simpa [Nat.mod_eq_of_lt hhead] using h0
  have hget : q.buffer[q.head] = some x := by
    rw [List.getElem?_eq_getElem hh] at hval
    exact Option.some.inj hval
  have hpop : q.pop = some (some x,
      { buffer := q.buffer.set q.head none
        head := (q.head + 1) % q.capacity
        tail := q.tail
        len := q.len - 1 }) := by
    simp [Queue.pop, hemp, hh, List.get_eq_getElem, hget]
  refine ⟨_, hpop, ?_, ?_⟩
  case refine_2 => simp [Queue.capacity]
  unfold Queue.Represents Queue.capacity at *
  simp only [List.length_set, List.length_cons] at *
  refine ⟨by omega, by omega, Nat.mod_lt _ hcap, ?_, ?_, ?_⟩
  · rw [Nat.mod_add_mod, htail]
    congr 1
    omega
  · intro k hk
    have hidx : ((q.head + 1) % q.buffer.length + k) % q.buffer.length
        = (q.head + (k + 1)) % q.buffer.length := by
      rw [Nat.mod_add_mod]
      congr 1
      omega
    rw [hidx]
    have hne : q.head ≠ (q.head + (k + 1)) % q.buffer.length := by
      intro he
      have h0 : (q.head + 0) % q.buffer.length = (q.head + (k + 1)) % q.buffer.length := by
        rw [Nat.add_zero, Nat.mod_eq_of_lt hhead]
        exact he
      have : 0 = k + 1 := add_mod_inj hcap (by omega) h0
      omega
    rw [List.getElem?_set_ne hne]
    have := hocc (k + 1) (by omega)
    simpa using this
  · intro i hi hk
    rcases Decidable.em (i = q.head) with he | he
    · subst he
      rw [List.getElem?_set_self hh]
    · rw [List.getElem?_set_ne (fun a => he a.symm)]
      refine hvac i hi ?_
      intro k hklen
      match k with
      | 0 =>
        rw [Nat.add_zero, Nat.mod_eq_of_lt hhead]
        exact fun a => he a
      | j + 1 =>
        have hidx : (q.head + (j + 1)) % q.buffer.length
            = ((q.head + 1) % q.buffer.length + j) % q.buffer.length := by
          rw [Nat.mod_add_mod]
          congr 1
          omega
        rw [hidx]
        exact hk j (by omega)

/-- Every reachable state satisfies the representation invariant for some
list of queued values, and keeps the construction-time capacity. -/
theorem reachable_represents {T : Type} {c : Nat} {q : Queue T}
    (h : Reachable T c q) : (∃ xs, q.Represents xs) ∧ q.capacity = c := by
  induction h with
  | new q hq =>
    obtain ⟨h1, h2⟩ := Queue.new_represents hq
    exact ⟨⟨[], h1⟩, h2⟩
  | push q x r q' hr hstep ih =>
    obtain ⟨⟨xs, hrep⟩, hc⟩ := ih
    rcases Nat.lt_or_ge xs.length q.capacity with hlt | hge
    · obtain ⟨q'', hpush, hrep', hcap'⟩ := Queue.push_represents x hrep hlt
      rw [hpush] at hstep
      cases hstep
      exact ⟨⟨xs ++ [x], hrep'⟩, by rw [hcap', hc]⟩
    · have hfull : q.len = q.capacity := by
        have e1 := hrep.1
        have e2 := hrep.2.1
        omega
      rw [Queue.push_of_full x hfull] at hstep
      cases hstep
      exact ⟨⟨xs, hrep⟩, hc⟩
  | pop q o q' hr hstep ih =>
    obtain ⟨⟨xs, hrep⟩, hc⟩ := ih
    cases xs with
    | nil =>
      rw [Queue.pop_of_empty (by simpa using hrep.1)] at hstep
      cases hstep
      exact ⟨⟨[], hrep⟩, hc⟩
    | cons y ys =>
      obtain ⟨q'', hpop, hrep', hcap'⟩ := Queue.pop_represents hrep
      rw [hpop] at hstep
      cases hstep
      exact ⟨⟨ys, hrep'⟩, by rw [hcap', hc]⟩

/-- A single client call on the queue. -/
inductive Op (T : Type) where
  | push (x : T)
  | pop
deriving Repr

/-- The observable result of a single call. -/
inductive Out (T : Type) where
  | pushed (r : Except Error Unit)
  | popped (r : Option T)
deriving Repr

/-- Runs a sequence of calls against the embedded code, collecting the
observable result of each call; `none` if any call panics. -/
def Queue.run (q : Queue T) : List (Op T) → Option (Queue T × List (Out T))
  | [] => some (q, [])
  | Op.push x :: ops =>
    match q.push x with
    | none => none
    | some (r, q') =>
      match q'.run ops with
      | none => none
      | some (qf, outs) => some (qf, Out.pushed r :: outs)
  | Op.pop :: ops =>
    match q.pop with
    | none => none
    | some (o, q') =>
      match q'.run ops with
      | none => none
      | some (qf, outs) => some (qf, Out.popped o :: outs)

/-- The textbook bounded-FIFO model, written from the spec: the state is the
list of queued values, oldest first; `push` appends unless the queue holds
`capacity` values (then `Full`), `pop` removes the oldest value. -/
def specStep (capacity : Nat) (xs : List T) : Op T → List T × Out T
  | Op.push x =>
    if xs.length = capacity then (xs, Out.pushed (Except.error Error.Full))
    else (xs ++ [x], Out.pushed (Except.ok ()))
  | Op.pop =>
    match xs with
    | [] => ([], Out.popped none)
    | y :: ys => (ys, Out.popped (some y))

/-- Runs a sequence of calls on the abstract FIFO model. -/
def specRun (capacity : Nat) (xs : List T) : List (Op T) → List T × List (Out T)
  | [] => (xs, [])
  | op :: ops =>
    let s := specStep capacity xs op
    let r := specRun capacity s.1 ops
    (r.1, s.2 :: r.2)

/-- Refinement: from any state representing `xs`, the code runs every call
sequence without panicking and produces exactly the outputs of the abstract
FIFO model started at `xs`. -/
theorem Queue.run_refines {T : Type} (ops : List (Op T)) :
    ∀ (q : Queue T) (xs : List T), q.Represents xs →
      ∃ q', q.run ops = some (q', (specRun q.capacity xs ops).2) ∧
        q'.Represents (specRun q.capacity xs ops).1 ∧ q'.capacity = q.capacity := by
  induction ops with
  | nil =>
    intro q xs hrep
    exact ⟨q, rfl, hrep, rfl⟩
  | cons op ops ih =>
    intro q xs hrep
    have hle := hrep.2.1
    cases op with
    | push x =>
      rcases Nat.lt_or_ge xs.length q.capacity with hlt | hge
      · obtain ⟨q1, hpush, hrep1, hcap1⟩ := Queue.push_represents x hrep hlt
        obtain ⟨q', hrun, hrep', hcap'⟩ := ih q1 (xs ++ [x]) hrep1
        refine ⟨q', ?_, ?_, by rw [hcap', hcap1]⟩
        · simp only [Queue.run, hpush, hcap1] at hrun ⊢
          rw [hrun]
          simp [specRun, specStep, Nat.ne_of_lt hlt]
        · simp only [specRun, specStep, Nat.ne_of_lt hlt, if_neg]
          rw [hcap1] at hrep'
          simpa using hrep'
      · have hfull : xs.length = q.capacity := by omega
        have hqfull : q.len = q.capacity := by rw [hrep.1, hfull]
        obtain ⟨q', hrun, hrep', hcap'⟩ := ih q xs hrep
        refine ⟨q', ?_, ?_, hcap'⟩
        · simp only [Queue.run, Queue.push_of_full x hqfull]
          rw [hrun]
          simp [specRun, specStep, hfull]
        · simpa [specRun, specStep, hfull] using hrep'
    | pop =>
      cases xs with
      | nil =>
        obtain ⟨q', hrun, hrep', hcap'⟩ := ih q [] hrep
        refine ⟨q', ?_, ?_, hcap'⟩
        · simp only [Queue.run, Queue.pop_of_empty (by simpa using hrep.1)]
          rw [hrun]
          simp [specRun, specStep]
        · simpa [specRun, specStep] using hrep'
      | cons y ys =>
        obtain ⟨q1, hpop, hrep1, hcap1⟩ := Queue.pop_represents hrep
        obtain ⟨q', hrun, hrep', hcap'⟩ := ih q1 ys hrep1
        refine ⟨q', ?_, ?_, by rw [hcap', hcap1]⟩
        · simp only [Queue.run, hpop, hcap1] at hrun ⊢
          rw [hrun]
          simp [specRun, specStep]
        · rw [hcap1] at hrep'
          simpa [specRun, specStep] using hrep'

theorem specRun_append (capacity : Nat) (ops1 ops2 : List (Op T)) :
    ∀ xs : List T, specRun capacity xs (ops1 ++ ops2) =
      ((specRun capacity (specRun capacity xs ops1).1 ops2).1,
       (specRun capacity xs ops1).2 ++ (specRun capacity (specRun capacity xs ops1).1 ops2).2) := by
  induction ops1 with
  | nil => intro xs; simp [specRun]
  | cons op ops ih => intro xs; simp [specRun, ih]

theorem specRun_pushes (capacity : Nat) (vs : List T) :
    ∀ xs : List T, xs.length + vs.length ≤ capacity →
      specRun capacity xs (vs.map Op.push) =
        (xs ++ vs, vs.map fun _ => Out.pushed (Except.ok ())) := by
  induction vs with
  | nil => intro xs h; simp [specRun]
  | cons v vs ih =>
    intro xs h
    have hne : xs.length ≠ capacity := by
      simp only [List.length_cons] at h
      omega
    have hrec := ih (xs ++ [v]) (by simp only [List.length_append,
      List.length_singleton, List.length_cons, List.length_nil] at h ⊢; omega)
    simp [specRun, specStep, hne, hrec]

theorem specRun_pops (capacity : Nat) (xs : List T) :
    specRun capacity xs (List.replicate xs.length Op.pop) =
      ([], xs.map fun v => Out.popped (some v)) := by
  induction xs with
  | nil => simp [specRun]
  | cons x xs ih =>
    simp [List.length_cons, List.replicate_succ, specRun, specStep, ih]

/-- C1: FIFO ordering across wraparound.  From any reachable empty state of
a queue built with capacity `c` — a fresh queue, but also any drained state
whose internal indices have already wrapped — every sequence of `push`/`pop`
calls observes exactly the outputs of the abstract FIFO list model
`specRun`, so pop order equals push order through every wrap of the
indices; in particular, pushing the values `vs` (each push succeeding) and
then popping `vs.length` times returns exactly `vs` in push order. -/
theorem fifo_ordering {T : Type} {c : Nat} {q : Queue T} (h : Reachable T c q)
    (hemp : q.len = 0) :
    (∀ ops : List (Op T),
      (q.run ops).map Prod.snd = some (specRun c ([] : List T) ops).2) ∧
    (∀ vs : List T, vs.length ≤ c →
      (q.run (vs.map Op.push ++ List.replicate vs.length Op.pop)).map Prod.snd =
        some ((vs.map fun _ => Out.pushed (Except.ok ())) ++
          vs.map fun v => Out.popped (some v))) := by
  obtain ⟨⟨xs, hrep⟩, hcap⟩ := reachable_represents h
  have hnil : xs = [] := by
    have h1 := hrep.1
    rw [hemp] at h1
    exact List.eq_nil_of_length_eq_zero h1.symm
  subst hnil
  have main : ∀ ops : List (Op T),
      (q.run ops).map Prod.snd = some (specRun c ([] : List T) ops).2 := by
    intro ops
    obtain ⟨q', hrun, -, -⟩ := Queue.run_refines ops q [] hrep
    rw [hcap] at hrun
    rw [hrun]
    rfl
  refine ⟨main, ?_⟩
  intro vs hvs
  rw [main (vs.map Op.push ++ List.replicate vs.length Op.pop)]
  congr 1
  rw [specRun_append, specRun_pushes c vs [] (by simpa using hvs)]
  simp [specRun_pops]

/-- Witness for C1 at the spec's wraparound example: capacity 3,
push 1, 2, 3; pop, pop; push 4, 5; pop, pop, pop observes
ok, ok, ok, 1, 2, ok, ok, 3, 4, 5. -/
theorem fifo_ordering_witness :
    (⟨List.replicate 3 none, 0, 0, 0⟩ : Queue Nat).len = 0 ∧
    (Queue.run (⟨List.replicate 3 none, 0, 0, 0⟩ : Queue Nat)
      [Op.push 1, Op.push 2, Op.push 3, Op.pop, Op.pop,
       Op.push 4, Op.push 5, Op.pop, Op.pop, Op.pop]).map Prod.snd =
      some [Out.pushed (Except.ok ()), Out.pushed (Except.ok ()),
        Out.pushed (Except.ok ()), Out.popped (some 1), Out.popped (some 2),
        Out.pushed (Except.ok ()), Out.pushed (Except.ok ()),
        Out.popped (some 3), Out.popped (some 4), Out.popped (some 5)] := by
  refine ⟨rfl, ?_⟩
  have hreach : Reachable Nat 3 (⟨List.replicate 3 none, 0, 0, 0⟩ : Queue Nat) :=
    Reachable.new _ rfl
  exact (fifo_ordering hreach rfl).1
    [Op.push 1, Op.push 2, Op.push 3, Op.pop, Op.pop,
     Op.push 4, Op.push 5, Op.pop, Op.pop, Op.pop]

/-- C2: pushing onto a queue whose `len` equals its `capacity` returns the
`Full` error and hands back the state completely unchanged — same buffer,
same `head`, same `tail`, same `len` — so `len()` afterwards still equals
`capacity()`. -/
theorem push_on_full_queue_rejects {T : Type} (q : Queue T) (x : T)
    (h : q.len = q.capacity) :
    q.push x = some (Except.error Error.Full, q) :=
  Queue.push_of_full x h

/-- Witness for C2: a full capacity-1 queue rejects a push unchanged. -/
theorem push_on_full_queue_rejects_witness :
    (⟨[some 1], 0, 0, 1⟩ : Queue Nat).len = (⟨[some 1], 0, 0, 1⟩ : Queue Nat).capacity ∧
    Queue.push (⟨[some 1], 0, 0, 1⟩ : Queue Nat) 2 =
      some (Except.error Error.Full, ⟨[some 1], 0, 0, 1⟩) :=
  ⟨rfl, push_on_full_queue_rejects _ 2 rfl⟩

/-- C3 — the code refutes the claim: on a full capacity-1 queue holding `7`,
pushing `42` returns `Err(Error::Full)`; `Error` has the single payload-free
constructor `Full`, so the failed call cannot hand the item back to the
caller through its return value, and the unchanged queue does not contain
`42` either — the moved-in item is silently dropped, contrary to the
claimed return-the-item-on-failure contract. -/
theorem push_full_drops_item :
    Queue.push (⟨[some 7], 0, 0, 1⟩ : Queue Nat) 42 =
      some (Except.error Error.Full, ⟨[some 7], 0, 0, 1⟩) ∧
    (∀ e : Error, e = Error.Full) ∧
    some 42 ∉ ([some 7] : List (Option Nat)) := by
  refine ⟨rfl, ?_, by decide⟩
  intro e
  cases e
  rfl

/-- C4: a push on a non-full queue succeeds, stores the item in slot `tail`
(post-buffer `q.buffer.set q.tail (some x)`), keeps `head`, advances `tail`
to `(tail + 1) % capacity`, increments `len`, and leaves every slot other
than `tail` unchanged.  The extra bound `q.tail < q.capacity` is the
in-range condition of the slot write; it holds in every state the code can
construct (claim C7/C9). -/
theorem push_success_postcondition {T : Type} (q : Queue T) (x : T) (i : Nat)
    (h1 : q.len < q.capacity) (h2 : q.tail < q.capacity) (h3 : i ≠ q.tail) :
    q.push x = some (Except.ok (),
      { buffer := q.buffer.set q.tail (some x)
        head := q.head
        tail := (q.tail + 1) % q.capacity
        len := q.len + 1 }) ∧
    (q.buffer.set q.tail (some x))[q.tail]? = some (some x) ∧
    (q.buffer.set q.tail (some x))[i]? = q.buffer[i]? := by
  refine ⟨Queue.push_of_not_full x h1 h2, List.getElem?_set_self h2, ?_⟩
  exact List.getElem?_set_ne (fun a => h3 a.symm)

/-- Witness for C4: pushing 2 onto a half-full capacity-2 queue. -/
theorem push_success_postcondition_witness :
    (⟨[some 1, none], 0, 1, 1⟩ : Queue Nat).len <
      (⟨[some 1, none], 0, 1, 1⟩ : Queue Nat).capacity ∧
    (⟨[some 1, none], 0, 1, 1⟩ : Queue Nat).tail <
      (⟨[some 1, none], 0, 1, 1⟩ : Queue Nat).capacity ∧
    (0 : Nat) ≠ (⟨[some 1, none], 0, 1, 1⟩ : Queue Nat).tail ∧
    (Queue.push (⟨[some 1, none], 0, 1, 1⟩ : Queue Nat) 2 =
      some (Except.ok (), ⟨[some 1, some 2], 0, 0, 2⟩) ∧
     ([some 1, some 2] : List (Option Nat))[1]? = some (some 2) ∧
     ([some 1, some 2] : List (Option Nat))[0]? =
       ([some 1, none] : List (Option Nat))[0]?) := by
  refine ⟨by decide, by decide, by decide, ?_⟩
  exact push_success_postcondition (⟨[some 1, none], 0, 1, 1⟩ : Queue Nat) 2 0
    (by decide) (by decide) (by decide)

/-- C5: popping a queue with `len = 0` returns the empty indicator `none`
and hands back the state completely unchanged — same buffer contents,
same `head`, same `tail`, same `len`. -/
theorem pop_on_empty_queue_noop {T : Type} (q : Queue T) (h : q.len = 0) :
    q.pop = some (none, q) :=
  Queue.pop_of_empty h

/-- Witness for C5: an empty queue with wrapped indices is untouched. -/
theorem pop_on_empty_queue_noop_witness :
    (⟨[none, none], 1, 1, 0⟩ : Queue Nat).len = 0 ∧
    Queue.pop (⟨[none, none], 1, 1, 0⟩ : Queue Nat) =
      some (none, ⟨[none, none], 1, 1, 0⟩) :=
  ⟨rfl, pop_on_empty_queue_noop _ rfl⟩

/-- C6: a pop on a non-empty queue removes and returns the value stored at
slot `head` (returned as `q.buffer.getD q.head none`, the slot's content),
immediately vacates that slot (post-buffer `q.buffer.set q.head none`, so
the buffer retains no copy of the value), advances `head` to
`(head + 1) % capacity`, decrements `len`, keeps `tail`, and leaves every
slot other than `head` unchanged.  The extra bound `q.head < q.capacity` is
the in-range condition of the slot read; it holds in every state the code
can construct (claim C7/C9). -/
theorem pop_success_postcondition {T : Type} (q : Queue T) (i : Nat)
    (h1 : 0 < q.len) (h2 : q.head < q.capacity) (h3 : i ≠ q.head) :
    q.pop = some (q.buffer.getD q.head none,
      { buffer := q.buffer.set q.head none
        head := (q.head + 1) % q.capacity
        tail := q.tail
        len := q.len - 1 }) ∧
    (q.buffer.set q.head none)[q.head]? = some none ∧
    (q.buffer.set q.head none)[i]? = q.buffer[i]? := by
  have hemp : q.is_empty = false := by
    simp only [Queue.is_empty, beq_eq_false_iff_ne, ne_eq]
    omega
  have h2' : q.head < q.buffer.length := h2
  refine ⟨?_, List.getElem?_set_self h2', List.getElem?_set_ne (fun a => h3 a.symm)⟩
  have hget : q.buffer.getD q.head none = q.buffer[q.head] := by
    rw [List.getD_eq_getElem?_getD, List.getElem?_eq_getElem h2']
    rfl
  simp [Queue.pop, hemp, h2', List.get_eq_getElem, hget]

/-- Witness for C6: popping a full capacity-2 queue yields the head value 5
and vacates its slot. -/
theorem pop_success_postcondition_witness :
    0 < (⟨[some 5, some 6], 0, 0, 2⟩ : Queue Nat).len ∧
    (⟨[some 5, some 6], 0, 0, 2⟩ : Queue Nat).head <
      (⟨[some 5, some 6], 0, 0, 2⟩ : Queue Nat).capacity ∧
    (1 : Nat) ≠ (⟨[some 5, some 6], 0, 0, 2⟩ : Queue Nat).head ∧
    (Queue.pop (⟨[some 5, some 6], 0, 0, 2⟩ : Queue Nat) =
      some (some 5, ⟨[none, some 6], 1, 0, 1⟩) ∧
     ([none, some 6] : List (Option Nat))[0]? = some none ∧
     ([none, some 6] : List (Option Nat))[1]? =
       ([some 5, some 6] : List (Option Nat))[1]?) := by
  refine ⟨by decide, by decide, by decide, ?_⟩
  exact pop_success_postcondition (⟨[some 5, some 6], 0, 0, 2⟩ : Queue Nat) 1
    (by decide) (by decide) (by decide)

/-- C7: in every state reachable from construction by any sequence of
`push`/`pop` calls, `len` stays within `[0, capacity]` and both `head` and
`tail` stay inside `[0, capacity)` — they are wrapped modulo the capacity
on every advance and never grow beyond it. -/
theorem reachable_state_invariant {T : Type} {c : Nat} {q : Queue T}
    (h : Reachable T c q) :
    q.len ≤ q.capacity ∧ q.head < q.capacity ∧ q.tail < q.capacity := by
  obtain ⟨⟨xs, hrep⟩, -⟩ := reachable_represents h
  obtain ⟨hlen, hle, hhead, htail, -, -⟩ := hrep
  have hcap : 0 < q.capacity := Nat.lt_of_le_of_lt (Nat.zero_le q.head) hhead
  exact ⟨by omega, hhead, by rw [htail]; exact Nat.mod_lt _ hcap⟩

/-- Witness for C7: the state reached by `new 2` then `push 5`. -/
theorem reachable_state_invariant_witness :
    (⟨[some 5, none], 0, 1, 1⟩ : Queue Nat).len ≤
      (⟨[some 5, none], 0, 1, 1⟩ : Queue Nat).capacity ∧
    (⟨[some 5, none], 0, 1, 1⟩ : Queue Nat).head <
      (⟨[some 5, none], 0, 1, 1⟩ : Queue Nat).capacity ∧
    (⟨[some 5, none], 0, 1, 1⟩ : Queue Nat).tail <
      (⟨[some 5, none], 0, 1, 1⟩ : Queue Nat).capacity :=
  reachable_state_invariant
    (Reachable.push ⟨List.replicate 2 none, 0, 0, 0⟩ 5 (Except.ok ())
      ⟨[some 5, none], 0, 1, 1⟩
      ((Reachable.new ⟨List.replicate 2 none, 0, 0, 0⟩ rfl :
        Reachable Nat 2 ⟨List.replicate 2 none, 0, 0, 0⟩)) rfl)

/-- C8: construction contract.  `new 0` terminates fatally (the modelled
panic, `none`) and never yields a queue; for every positive capacity `c`,
`new c` yields a queue with `len = 0`, `head = tail = 0`, exactly `c`
vacant slots (`List.replicate c none`), `capacity() = c`, and the capacity
stays `c` in every state reachable thereafter. -/
theorem new_contract (T : Type) :
    Queue.new T 0 = none ∧
    ∀ c : Nat, 0 < c → ∃ q : Queue T, Queue.new T c = some q ∧
      q.len = 0 ∧ q.head = 0 ∧ q.tail = 0 ∧
      q.buffer = List.replicate c none ∧ q.capacity = c ∧
      ∀ q' : Queue T, Reachable T c q' → q'.capacity = c := by
  refine ⟨rfl, ?_⟩
  intro c hc
  refine ⟨⟨List.replicate c none, 0, 0, 0⟩, ?_, rfl, rfl, rfl, rfl, ?_, ?_⟩
  · unfold Queue.new
    rw [if_pos hc]
  · simp [Queue.capacity]
  · intro q' hq'
    exact (reachable_represents hq').2

/-- Witness for C8 at element type `Nat` and capacity 3. -/
theorem new_contract_witness :
    Queue.new Nat 0 = none ∧
    (0 < 3 ∧ ∃ q : Queue Nat, Queue.new Nat 3 = some q ∧
      q.len = 0 ∧ q.head = 0 ∧ q.tail = 0 ∧
      q.buffer = List.replicate 3 none ∧ q.capacity = 3) := by
  refine ⟨(new_contract Nat).1, by decide, ?_⟩
  obtain ⟨q, h1, h2, h3, h4, h5, h6, -⟩ := (new_contract Nat).2 3 (by decide)
  exact ⟨q, h1, h2, h3, h4, h5, h6⟩

/-- C9: on every reachable state the internal indices are strictly below
the capacity, so the slot accesses of `push` and `pop` are in bounds and
both calls complete without panicking (never return the modelled panic
`none`); moreover on a non-empty queue the slot read by `pop` always holds
a value, so `pop` never returns the empty indicator while `len > 0`. -/
theorem reachable_accesses_safe {T : Type} {c : Nat} {q : Queue T}
    (h : Reachable T c q) (x : T) :
    q.head < q.capacity ∧ q.tail < q.capacity ∧
    (q.push x).isSome = true ∧ (q.pop).isSome = true ∧
    (0 < q.len → (q.pop).map (fun p => p.1.isSome) = some true) := by
  obtain ⟨⟨xs, hrep⟩, -⟩ := reachable_represents h
  have hhead := hrep.2.2.1
  have htail := hrep.2.2.2.1
  have hcap : 0 < q.capacity := Nat.lt_of_le_of_lt (Nat.zero_le q.head) hhead
  refine ⟨hhead, by rw [htail]; exact Nat.mod_lt _ hcap, ?_, ?_, ?_⟩
  · rcases Nat.lt_or_ge xs.length q.capacity with hlt | hge
    · obtain ⟨q', hp, -, -⟩ := Queue.push_represents x hrep hlt
      rw [hp]
      rfl
    · have hfull : q.len = q.capacity := by
        have e1 := hrep.1
        have e2 := hrep.2.1
        omega
      rw [Queue.push_of_full x hfull]
      rfl
  · cases xs with
    | nil =>
      rw [Queue.pop_of_empty (by simpa using hrep.1)]
      rfl
    | cons y ys =>
      obtain ⟨q', hp, -, -⟩ := Queue.pop_represents hrep
      rw [hp]
      rfl
  · intro hlen
    cases xs with
    | nil =>
      exfalso
      have e1 := hrep.1
      simp only [List.length_nil] at e1
      omega
    | cons y ys =>
      obtain ⟨q', hp, -, -⟩ := Queue.pop_represents hrep
      rw [hp]
      rfl

/-- Witness for C9 at the reachable state after `new 2` and `push 5`. -/
theorem reachable_accesses_safe_witness :
    (⟨[some 5, none], 0, 1, 1⟩ : Queue Nat).head <
      (⟨[some 5, none], 0, 1, 1⟩ : Queue Nat).capacity ∧
    (⟨[some 5, none], 0, 1, 1⟩ : Queue Nat).tail <
      (⟨[some 5, none], 0, 1, 1⟩ : Queue Nat).capacity ∧
    (Queue.push (⟨[some 5, none], 0, 1, 1⟩ : Queue Nat) 9).isSome = true ∧
    (Queue.pop (⟨[some 5, none], 0, 1, 1⟩ : Queue Nat)).isSome = true ∧
    (0 < (⟨[some 5, none], 0, 1, 1⟩ : Queue Nat).len →
      (Queue.pop (⟨[some 5, none], 0, 1, 1⟩ : Queue Nat)).map
        (fun p => p.1.isSome) = some true) :=
  reachable_accesses_safe
    (Reachable.push ⟨List.replicate 2 none, 0, 0, 0⟩ 5 (Except.ok ())
      ⟨[some 5, none], 0, 1, 1⟩
      ((Reachable.new ⟨List.replicate 2 none, 0, 0, 0⟩ rfl :
        Reachable Nat 2 ⟨List.replicate 2 none, 0, 0, 0⟩)) rfl) 9

/-- C10: head/tail/len coherence on every reachable state: `tail` is
`(head + len) % capacity`, and a slot `i` of the buffer holds a value
exactly when `i` is one of the `len` ring positions
`(head + k) % capacity` for `k < len`. -/
theorem reachable_occupancy_coherence {T : Type} {c : Nat} {q : Queue T}
    (i : Nat) (h : Reachable T c q) (hi : i < q.capacity) :
    q.tail = (q.head + q.len) % q.capacity ∧
    ((∃ v, q.buffer[i]? = some (some v)) ↔
      ∃ k, k < q.len ∧ i = (q.head + k) % q.capacity) := by
  obtain ⟨⟨xs, hrep⟩, -⟩ := reachable_represents h
  obtain ⟨hlen, hle, hhead, htail, hocc, hvac⟩ := hrep
  refine ⟨htail, ?_, ?_⟩
  · rintro ⟨v, hv⟩
    by_contra hcon
    push_neg at hcon
    have hn : q.buffer[i]? = some none := hvac i hi (fun k hk => hcon k hk)
    rw [hn] at hv
    simp at hv
  · rintro ⟨k, hk, rfl⟩
    have hk' : k < xs.length := by omega
    exact ⟨xs[k], hocc k hk'⟩

/-- Witness for C10 at the reachable state after `new 2` and `push 5`,
checking slot 0 (occupied) through the equivalence. -/
theorem reachable_occupancy_coherence_witness :
    (0 : Nat) < (⟨[some 5, none], 0, 1, 1⟩ : Queue Nat).capacity ∧
    ((⟨[some 5, none], 0, 1, 1⟩ : Queue Nat).tail =
      ((⟨[some 5, none], 0, 1, 1⟩ : Queue Nat).head +
        (⟨[some 5, none], 0, 1, 1⟩ : Queue Nat).len) %
        (⟨[some 5, none], 0, 1, 1⟩ : Queue Nat).capacity ∧
    ((∃ v, ((⟨[some 5, none], 0, 1, 1⟩ : Queue Nat).buffer)[0]? = some (some v)) ↔
      ∃ k, k < (⟨[some 5, none], 0, 1, 1⟩ : Queue Nat).len ∧
        0 = ((⟨[some 5, none], 0, 1, 1⟩ : Queue Nat).head + k) %
          (⟨[some 5, none], 0, 1, 1⟩ : Queue Nat).capacity)) :=
  ⟨by decide, reachable_occupancy_coherence 0
    (Reachable.push ⟨List.replicate 2 none, 0, 0, 0⟩ 5 (Except.ok ())
      ⟨[some 5, none], 0, 1, 1⟩
      ((Reachable.new ⟨List.replicate 2 none, 0, 0, 0⟩ rfl :
        Reachable Nat 2 ⟨List.replicate 2 none, 0, 0, 0⟩)) rfl)
    (by decide)⟩

end RingBuffer
